import Mathlib

/-!
Verification development for fs-directory-cleaner (src/fs-directory-cleaner.cpp).

We shallowly embed the program over an in-memory model of the filesystem.
A filesystem node is either a regular file (a leaf) or a directory with a
list of children.  Two Boolean flags model the environment-induced error
behaviour of the real `std::filesystem` backend used by
`RealFilesystemExecutor`:

* `locked` on a file: `fs::remove` on that path fails and sets the error
  code (e.g. permission denied).  An unlocked file is removed normally.
* `denied` on a directory: enumerating the directory fails with
  permission-denied.  Since `listDirectories` constructs its
  `fs::directory_iterator` with `fs::directory_options::skip_permission_denied`,
  such a directory is silently treated as empty.

A tree with every flag `false` is an ordinary directory tree on which the
real filesystem raises no errors.

The cleaner side effects are captured as a single ordered event trace:
`Ev.out o` is a console observation (one of the four print statements in
the source) and `Ev.removeCall p` is an invocation of the executor
operation `removeFile` on path `p`.  Paths are lists of path components.
-/

inductive FSTree where
  | file (name : String) (mtime : Int) (locked : Bool)
  | dir (name : String) (mtime : Int) (denied : Bool) (children : List FSTree)

/-- Name component of a node (the last component of its path). -/
def FSTree.name : FSTree → String
  | .file n _ _ => n
  | .dir n _ _ _ => n

/-- Last-modified time of a node, as `entry.last_write_time()` reports it. -/
def FSTree.mtime : FSTree → Int
  | .file _ m _ => m
  | .dir _ m _ _ => m

/-- Run mode, as in the source: `enum class RunMode { DryRun, Execute }`. -/
inductive RunMode where
  | DryRun
  | Execute
deriving DecidableEq

/-- Console observations: one constructor per print statement in the source.
`removingDryRun p` is `Removing (dry-run): p`, `removing p` is `Removing: p`,
`skipping p` is `Skipping: p`, and `error m` is `Error: m` where `m` is the
error-code message (the source prints `ec.message()`, not the path). -/
inductive Obs where
  | removingDryRun (path : List String)
  | removing (path : List String)
  | skipping (path : List String)
  | error (msg : String)
deriving DecidableEq

/-- Events of a run: a console observation, or a call of the executor
operation `removeFile` on a path. -/
inductive Ev where
  | out (o : Obs)
  | removeCall (path : List String)
deriving DecidableEq

/-- Model of `ec.message()` for the injected removal failure. -/
def ecMsg : String := "permission denied"

mutual

/-- Embedding of `deleteRecursively(path, runMode, executor)` from the source.
The argument `path` is the path of the node `t` itself.  Returns the
surviving node (`none` when the node was removed) and the event trace.

Source behaviour: if `isDirectory(path)` then loop
`deleteRecursively(entry.path())` over `listDirectories(path)` (which is
empty for a permission-denied directory, by `skip_permission_denied`);
otherwise in `DryRun` print `Removing (dry-run):`, and in `Execute` print
`Removing:`, call `removeFile`, and print `Error: ec.message()` if the
error code is set. -/
def deleteRecursively (path : List String) (runMode : RunMode) : FSTree → Option FSTree × List Ev
  | FSTree.dir n m denied cs =>
    if denied then
      (some (FSTree.dir n m denied cs), [])
    else
      let r := deleteList path runMode cs
      (some (FSTree.dir n m denied r.1), r.2)
  | FSTree.file n m locked =>
    match runMode with
    | RunMode.DryRun =>
      (some (FSTree.file n m locked), [Ev.out (Obs.removingDryRun path)])
    | RunMode.Execute =>
      if locked then
        (some (FSTree.file n m locked),
          [Ev.out (Obs.removing path), Ev.removeCall path, Ev.out (Obs.error ecMsg)])
      else
        (none, [Ev.out (Obs.removing path), Ev.removeCall path])

/-- The `for (const auto& entry : executor.listDirectories(path))` loop of
`deleteRecursively`: processes the children of the directory at `path` in
listing order.  Returns surviving children and the concatenated trace. -/
def deleteList (path : List String) (runMode : RunMode) : List FSTree → List FSTree × List Ev
  | [] => ([], [])
  | c :: rest =>
    let r1 := deleteRecursively (path ++ [FSTree.name c]) runMode c
    let r2 := deleteList path runMode rest
    (r1.1.toList ++ r2.1, r1.2 ++ r2.2)

end

/-- The per-entry body of the loop in `deleteDirectoriesIfOlderThan`:
compare `entry.last_write_time()` with `oldestAllowed`; strictly older
entries are handed to `deleteRecursively`, the rest are skipped with a
`Skipping:` observation.  `basePath` is the path of the base directory, so
the entry itself lives at `basePath ++ [name]`. -/
def processEntry (basePath : List String) (oldestAllowed : Int) (runMode : RunMode)
    (c : FSTree) : Option FSTree × List Ev :=
  if FSTree.mtime c < oldestAllowed then
    deleteRecursively (basePath ++ [FSTree.name c]) runMode c
  else
    (some c, [Ev.out (Obs.skipping (basePath ++ [FSTree.name c]))])

/-- The `for (auto const& entry : executor.listDirectories(baseDirectory))`
loop of `deleteDirectoriesIfOlderThan`, applied to the listing of the base
directory. -/
def deleteDirectoriesLoop (basePath : List String) (oldestAllowed : Int) (runMode : RunMode) :
    List FSTree → List FSTree × List Ev
  | [] => ([], [])
  | c :: rest =>
    let r1 := processEntry basePath oldestAllowed runMode c
    let r2 := deleteDirectoriesLoop basePath oldestAllowed runMode rest
    (r1.1.toList ++ r2.1, r1.2 ++ r2.2)

/-- Model of `listDirectories(baseDirectory)` applied to the root path of a
run.  The root of a run is not a node we hold structurally, so it is given
as `Option FSTree`: `none` when no filesystem object exists at the root
path.  `fs::directory_iterator` (even with `skip_permission_denied`)
throws `fs::filesystem_error` when the path does not exist or is not a
directory; only the permission-denied case is suppressed, yielding an
empty listing.  The thrown exception is modelled as `Except.error`. -/
def listDirectoriesRoot : Option FSTree → Except Unit (List FSTree)
  | some (FSTree.dir _ _ denied cs) => Except.ok (if denied then [] else cs)
  | _ => Except.error ()

/-- Embedding of `deleteDirectoriesIfOlderThan(baseDirectory, oldestAllowed,
runMode, executor)`: list the base directory (an exception propagates to
the caller), then run the loop over the listing. -/
def deleteDirectoriesIfOlderThan (basePath : List String) (oldestAllowed : Int)
    (runMode : RunMode) (root : Option FSTree) : Except Unit (List FSTree × List Ev) :=
  match listDirectoriesRoot root with
  | Except.error e => Except.error e
  | Except.ok entries => Except.ok (deleteDirectoriesLoop basePath oldestAllowed runMode entries)

/-- Outcome of a whole process run.  `usageError` is the explicit
`EXIT_FAILURE` on wrong argument count; `crashed` models an uncaught
exception (from `std::stoi` or from `fs::directory_iterator`), which
terminates the process abnormally with a non-zero status; `success` is
`EXIT_SUCCESS`. -/
inductive ExitStatus where
  | success
  | usageError
  | crashed
deriving DecidableEq

/-- Numeric value of a list of decimal digits. -/
def digitsVal (cs : List Char) : Nat :=
  cs.foldl (fun acc c => acc * 10 + (Char.toNat c - Char.toNat '0')) 0

/-- Parse a maximal non-empty leading run of digits, as `std::stoi` does
after sign handling (trailing junk is ignored; no digits at all is a
parse failure). -/
def stoiDigits (cs : List Char) : Option Nat :=
  let ds := cs.takeWhile Char.isDigit
  if ds.isEmpty then none else some (digitsVal ds)

/-- Whitespace as classified by `isspace` in the C locale — space, tab,
newline, carriage return, vertical tab, form feed — which `std::stoi`
(via `strtol`) skips before the number. -/
def isSpaceChar (c : Char) : Bool :=
  c = ' ' || c = '\t' || c = '\n' || c = '\r' || c = Char.ofNat 11 || c = Char.ofNat 12

/-- `INT_MAX` for the 32-bit `int` that `std::stoi` returns. -/
def intMax : Int := 2147483647

/-- `INT_MIN` for the 32-bit `int` that `std::stoi` returns. -/
def intMin : Int := -2147483648

/-- Model of `std::stoi`: skip leading `isspace` whitespace, an optional
sign, then a non-empty run of digits, with trailing junk ignored.  `none`
models a thrown exception: `std::invalid_argument` when no conversion is
possible, and `std::out_of_range` when the converted value does not fit in
`int`; `main` catches neither, so both abort the process. -/
def stoi (s : String) : Option Int :=
  let signed : Option Int :=
    match s.toList.dropWhile isSpaceChar with
    | '-' :: rest => (stoiDigits rest).map (fun n => -(n : Int))
    | '+' :: rest => (stoiDigits rest).map (fun n => (n : Int))
    | cs => (stoiDigits cs).map (fun n => (n : Int))
  match signed with
  | none => none
  | some v => if v < intMin || intMax < v then none else some v

/-- Whether the root path can be opened for listing at all: it must exist
and be a directory (a permission-denied directory still opens, as an empty
listing). -/
def rootListable : Option FSTree → Bool
  | some (FSTree.dir _ _ _ _) => true
  | _ => false

/-- Embedding of `main`.  `args` is `argv[1..]`, `now` the current clock
reading, `root` the filesystem object at the root path.  The run mode is
fixed to `DryRun` in the source.  Wrong argument count prints usage and
returns `EXIT_FAILURE`; an unparsable age or a root that cannot be listed
raises an uncaught exception (`crashed`); otherwise the traversal runs and
the process returns `EXIT_SUCCESS`. -/
def mainRun (args : List String) (now : Int) (root : Option FSTree) : ExitStatus × List Ev :=
  if args.length ≠ 2 then (ExitStatus.usageError, [])
  else
    match stoi (args.getD 1 "") with
    | none => (ExitStatus.crashed, [])
    | some minutes =>
      match deleteDirectoriesIfOlderThan [args.getD 0 ""] (now - minutes) RunMode.DryRun root with
      | Except.error _ => (ExitStatus.crashed, [])
      | Except.ok r => (ExitStatus.success, r.2)

/-- Paths of all `removeFile` invocations in a trace, in order. -/
def callsOf (tr : List Ev) : List (List String) :=
  tr.filterMap fun e =>
    match e with
    | Ev.removeCall p => some p
    | _ => none

/-- Paths of all `Removing (dry-run):` observations in a trace, in order. -/
def dryRunPaths (tr : List Ev) : List (List String) :=
  tr.filterMap fun e =>
    match e with
    | Ev.out (Obs.removingDryRun p) => some p
    | _ => none

/-- Messages of all `Error:` observations in a trace, in order. -/
def errorsOf (tr : List Ev) : List String :=
  tr.filterMap fun e =>
    match e with
    | Ev.out (Obs.error m) => some m
    | _ => none

mutual

/-- A tree contains no file (leaf) node anywhere. -/
def FSTree.noFiles : FSTree → Bool
  | .file _ _ _ => false
  | .dir _ _ _ cs => FSTree.noFilesList cs

/-- Every tree of the list contains no file node. -/
def FSTree.noFilesList : List FSTree → Bool
  | [] => true
  | t :: ts => FSTree.noFiles t && FSTree.noFilesList ts

end

mutual

/-- No environment-induced error anywhere in the tree: no locked file and no
permission-denied directory.  Such trees are exactly the ordinary directory
trees on which the real filesystem raises no removal or listing errors. -/
def FSTree.errFree : FSTree → Bool
  | .file _ _ locked => !locked
  | .dir _ _ denied cs => !denied && FSTree.errFreeList cs

/-- Every tree of the list is free of error flags. -/
def FSTree.errFreeList : List FSTree → Bool
  | [] => true
  | t :: ts => FSTree.errFree t && FSTree.errFreeList ts

end

mutual

/-- Rewrite every last-modified time in the tree through `f`, leaving names,
flags and shape unchanged. -/
def FSTree.mapMtime (f : Int → Int) : FSTree → FSTree
  | .file n m locked => .file n (f m) locked
  | .dir n m denied cs => .dir n (f m) denied (FSTree.mapMtimeList f cs)

/-- Map `FSTree.mapMtime` over a list of trees. -/
def FSTree.mapMtimeList (f : Int → Int) : List FSTree → List FSTree
  | [] => []
  | t :: ts => FSTree.mapMtime f t :: FSTree.mapMtimeList f ts

end

mutual

/-- Paths of all file (non-directory) nodes of a tree whose own path is `p`. -/
def filePathsAt (p : List String) : FSTree → List (List String)
  | FSTree.file _ _ _ => [p]
  | FSTree.dir _ _ _ cs => filePathsAtList p cs

/-- Paths of all file nodes of the children of the directory at `p`. -/
def filePathsAtList (p : List String) : List FSTree → List (List String)
  | [] => []
  | t :: ts => filePathsAt (p ++ [FSTree.name t]) t ++ filePathsAtList p ts

end

mutual

/-- Height of a tree: the maximal number of nested nodes on a root-to-leaf
path; this bounds the recursion depth of `deleteRecursively`. -/
def FSTree.height : FSTree → Nat
  | .file _ _ _ => 1
  | .dir _ _ _ cs => 1 + FSTree.heightList cs

/-- Maximal height of the trees of a list. -/
def FSTree.heightList : List FSTree → Nat
  | [] => 0
  | t :: ts => max (FSTree.height t) (FSTree.heightList ts)

end

mutual

/-- Fuel-bounded variant of `deleteRecursively`, mirroring the unbounded
recursion of the source: each recursive descent into a node consumes one
unit of fuel, and `none` signals fuel exhaustion.  This variant makes the
termination of the source recursion a provable statement rather than a
side effect of the embedding being total. -/
def deleteRecursivelyFuel : Nat → List String → RunMode → FSTree → Option (Option FSTree × List Ev)
  | 0, _, _, _ => none
  | Nat.succ fuel, path, runMode, t =>
    match t with
    | FSTree.dir n m denied cs =>
      if denied then
        some (some (FSTree.dir n m denied cs), [])
      else
        match deleteListFuel fuel path runMode cs with
        | none => none
        | some r => some (some (FSTree.dir n m denied r.1), r.2)
    | FSTree.file n m locked =>
      match runMode with
      | RunMode.DryRun =>
        some (some (FSTree.file n m locked), [Ev.out (Obs.removingDryRun path)])
      | RunMode.Execute =>
        if locked then
          some (some (FSTree.file n m locked),
            [Ev.out (Obs.removing path), Ev.removeCall path, Ev.out (Obs.error ecMsg)])
        else
          some (none, [Ev.out (Obs.removing path), Ev.removeCall path])
termination_by fuel _ _ t => (fuel, sizeOf t)

/-- Fuel-bounded variant of `deleteList`; iterating over siblings is a loop
in the source, so it consumes no fuel by itself. -/
def deleteListFuel : Nat → List String → RunMode → List FSTree → Option (List FSTree × List Ev)
  | _, _, _, [] => some ([], [])
  | fuel, path, runMode, c :: rest =>
    match deleteRecursivelyFuel fuel (path ++ [FSTree.name c]) runMode c with
    | none => none
    | some r1 =>
      match deleteListFuel fuel path runMode rest with
      | none => none
      | some r2 => some (r1.1.toList ++ r2.1, r1.2 ++ r2.2)
termination_by fuel _ _ ts => (fuel, sizeOf ts)

end

mutual

/-- Mutual induction for `FSTree` together with lists of trees. -/
def FSTree.indTree {P : FSTree → Prop} {Q : List FSTree → Prop}
    (hfile : ∀ n m locked, P (FSTree.file n m locked))
    (hdir : ∀ n m denied cs, Q cs → P (FSTree.dir n m denied cs))
    (hnil : Q [])
    (hcons : ∀ t ts, P t → Q ts → Q (t :: ts)) : ∀ t, P t
  | FSTree.file n m locked => hfile n m locked
  | FSTree.dir n m denied cs =>
    hdir n m denied cs (FSTree.indList hfile hdir hnil hcons cs)

/-- List part of the mutual induction for `FSTree`. -/
def FSTree.indList {P : FSTree → Prop} {Q : List FSTree → Prop}
    (hfile : ∀ n m locked, P (FSTree.file n m locked))
    (hdir : ∀ n m denied cs, Q cs → P (FSTree.dir n m denied cs))
    (hnil : Q [])
    (hcons : ∀ t ts, P t → Q ts → Q (t :: ts)) : ∀ ts, Q ts
  | [] => hnil
  | t :: ts =>
    hcons t ts (FSTree.indTree hfile hdir hnil hcons t)
      (FSTree.indList hfile hdir hnil hcons ts)

end

/-- Whether an event is a `removeFile` invocation. -/
def isCall : Ev → Bool
  | Ev.removeCall _ => true
  | _ => false

/-- A `removeFile` invocation is admissible right after `prev` only when
`prev` is the `Removing:` observation for the same path; any other event is
admissible after anything. -/
def callOkAfter (prev e : Ev) : Bool :=
  match e with
  | Ev.removeCall q => prev == Ev.out (Obs.removing q)
  | _ => true

/-- Pairwise scan of a trace starting after event `prev`. -/
def precOkFrom : Ev → List Ev → Bool
  | _, [] => true
  | prev, e :: rest => callOkAfter prev e && precOkFrom e rest

/-- Every `removeFile` invocation in the trace is immediately preceded by
the `Removing:` observation for its path (in particular none occurs
first). -/
def precOk : List Ev → Bool
  | [] => true
  | e :: rest => !isCall e && precOkFrom e rest

@[simp] theorem deleteRecursively_dir (p : List String) (mode : RunMode)
    (n : String) (m : Int) (d : Bool) (cs : List FSTree) :
    deleteRecursively p mode (FSTree.dir n m d cs) =
      if d then (some (FSTree.dir n m d cs), [])
      else (some (FSTree.dir n m d (deleteList p mode cs).1), (deleteList p mode cs).2) := by
  rw [deleteRecursively]

@[simp] theorem deleteRecursively_file_dry (p : List String)
    (n : String) (m : Int) (locked : Bool) :
    deleteRecursively p RunMode.DryRun (FSTree.file n m locked) =
      (some (FSTree.file n m locked), [Ev.out (Obs.removingDryRun p)]) := by
  rw [deleteRecursively]

@[simp] theorem deleteRecursively_file_exec (p : List String)
    (n : String) (m : Int) (locked : Bool) :
    deleteRecursively p RunMode.Execute (FSTree.file n m locked) =
      if locked then
        (some (FSTree.file n m locked),
          [Ev.out (Obs.removing p), Ev.removeCall p, Ev.out (Obs.error ecMsg)])
      else
        (none, [Ev.out (Obs.removing p), Ev.removeCall p]) := by
  rw [deleteRecursively]

@[simp] theorem deleteList_nil (p : List String) (mode : RunMode) :
    deleteList p mode [] = ([], []) := by
  rw [deleteList]

@[simp] theorem deleteList_cons (p : List String) (mode : RunMode)
    (c : FSTree) (rest : List FSTree) :
    deleteList p mode (c :: rest) =
      ((deleteRecursively (p ++ [FSTree.name c]) mode c).1.toList ++ (deleteList p mode rest).1,
       (deleteRecursively (p ++ [FSTree.name c]) mode c).2 ++ (deleteList p mode rest).2) := by
  rw [deleteList]

@[simp] theorem deleteDirectoriesLoop_nil (p : List String) (θ : Int) (mode : RunMode) :
    deleteDirectoriesLoop p θ mode [] = ([], []) := rfl

@[simp] theorem deleteDirectoriesLoop_cons (p : List String) (θ : Int) (mode : RunMode)
    (c : FSTree) (rest : List FSTree) :
    deleteDirectoriesLoop p θ mode (c :: rest) =
      ((processEntry p θ mode c).1.toList ++ (deleteDirectoriesLoop p θ mode rest).1,
       (processEntry p θ mode c).2 ++ (deleteDirectoriesLoop p θ mode rest).2) := rfl

@[simp] theorem callsOf_nil : callsOf [] = [] := rfl

@[simp] theorem callsOf_append (a b : List Ev) : callsOf (a ++ b) = callsOf a ++ callsOf b :=
  List.filterMap_append a b _

@[simp] theorem dryRunPaths_nil : dryRunPaths [] = [] := rfl

@[simp] theorem dryRunPaths_append (a b : List Ev) :
    dryRunPaths (a ++ b) = dryRunPaths a ++ dryRunPaths b :=
  List.filterMap_append a b _

@[simp] theorem errorsOf_nil : errorsOf [] = [] := rfl

@[simp] theorem errorsOf_append (a b : List Ev) :
    errorsOf (a ++ b) = errorsOf a ++ errorsOf b :=
  List.filterMap_append a b _

@[simp] theorem callsOf_out_cons (o : Obs) (tr : List Ev) :
    callsOf (Ev.out o :: tr) = callsOf tr := rfl

@[simp] theorem callsOf_call_cons (q : List String) (tr : List Ev) :
    callsOf (Ev.removeCall q :: tr) = q :: callsOf tr := rfl

@[simp] theorem dryRunPaths_call_cons (q : List String) (tr : List Ev) :
    dryRunPaths (Ev.removeCall q :: tr) = dryRunPaths tr := rfl

@[simp] theorem dryRunPaths_dry_cons (q : List String) (tr : List Ev) :
    dryRunPaths (Ev.out (Obs.removingDryRun q) :: tr) = q :: dryRunPaths tr := rfl

@[simp] theorem dryRunPaths_removing_cons (q : List String) (tr : List Ev) :
    dryRunPaths (Ev.out (Obs.removing q) :: tr) = dryRunPaths tr := rfl

@[simp] theorem dryRunPaths_skipping_cons (q : List String) (tr : List Ev) :
    dryRunPaths (Ev.out (Obs.skipping q) :: tr) = dryRunPaths tr := rfl

@[simp] theorem dryRunPaths_error_cons (s : String) (tr : List Ev) :
    dryRunPaths (Ev.out (Obs.error s) :: tr) = dryRunPaths tr := rfl

@[simp] theorem errorsOf_call_cons (q : List String) (tr : List Ev) :
    errorsOf (Ev.removeCall q :: tr) = errorsOf tr := rfl

@[simp] theorem errorsOf_dry_cons (q : List String) (tr : List Ev) :
    errorsOf (Ev.out (Obs.removingDryRun q) :: tr) = errorsOf tr := rfl

@[simp] theorem errorsOf_removing_cons (q : List String) (tr : List Ev) :
    errorsOf (Ev.out (Obs.removing q) :: tr) = errorsOf tr := rfl

@[simp] theorem errorsOf_skipping_cons (q : List String) (tr : List Ev) :
    errorsOf (Ev.out (Obs.skipping q) :: tr) = errorsOf tr := rfl

@[simp] theorem errorsOf_error_cons (s : String) (tr : List Ev) :
    errorsOf (Ev.out (Obs.error s) :: tr) = s :: errorsOf tr := rfl

@[simp] theorem name_file (n : String) (m : Int) (l : Bool) :
    FSTree.name (FSTree.file n m l) = n := rfl

@[simp] theorem name_dir (n : String) (m : Int) (d : Bool) (cs : List FSTree) :
    FSTree.name (FSTree.dir n m d cs) = n := rfl

@[simp] theorem mtime_file (n : String) (m : Int) (l : Bool) :
    FSTree.mtime (FSTree.file n m l) = m := rfl

@[simp] theorem mtime_dir (n : String) (m : Int) (d : Bool) (cs : List FSTree) :
    FSTree.mtime (FSTree.dir n m d cs) = m := rfl

@[simp] theorem noFiles_file (n : String) (m : Int) (l : Bool) :
    FSTree.noFiles (FSTree.file n m l) = false := by rw [FSTree.noFiles]

@[simp] theorem noFiles_dir (n : String) (m : Int) (d : Bool) (cs : List FSTree) :
    FSTree.noFiles (FSTree.dir n m d cs) = FSTree.noFilesList cs := by rw [FSTree.noFiles]

@[simp] theorem noFilesList_nil : FSTree.noFilesList [] = true := by rw [FSTree.noFilesList]

@[simp] theorem noFilesList_cons (t : FSTree) (ts : List FSTree) :
    FSTree.noFilesList (t :: ts) = (FSTree.noFiles t && FSTree.noFilesList ts) := by
  rw [FSTree.noFilesList]

@[simp] theorem errFree_file (n : String) (m : Int) (l : Bool) :
    FSTree.errFree (FSTree.file n m l) = !l := by rw [FSTree.errFree]

@[simp] theorem errFree_dir (n : String) (m : Int) (d : Bool) (cs : List FSTree) :
    FSTree.errFree (FSTree.dir n m d cs) = (!d && FSTree.errFreeList cs) := by
  rw [FSTree.errFree]

@[simp] theorem errFreeList_nil : FSTree.errFreeList [] = true := by rw [FSTree.errFreeList]

@[simp] theorem errFreeList_cons (t : FSTree) (ts : List FSTree) :
    FSTree.errFreeList (t :: ts) = (FSTree.errFree t && FSTree.errFreeList ts) := by
  rw [FSTree.errFreeList]

@[simp] theorem mapMtime_file (f : Int → Int) (n : String) (m : Int) (l : Bool) :
    FSTree.mapMtime f (FSTree.file n m l) = FSTree.file n (f m) l := by rw [FSTree.mapMtime]

@[simp] theorem mapMtime_dir (f : Int → Int) (n : String) (m : Int) (d : Bool)
    (cs : List FSTree) :
    FSTree.mapMtime f (FSTree.dir n m d cs) =
      FSTree.dir n (f m) d (FSTree.mapMtimeList f cs) := by rw [FSTree.mapMtime]

@[simp] theorem mapMtimeList_nil (f : Int → Int) : FSTree.mapMtimeList f [] = [] := by
  rw [FSTree.mapMtimeList]

@[simp] theorem mapMtimeList_cons (f : Int → Int) (t : FSTree) (ts : List FSTree) :
    FSTree.mapMtimeList f (t :: ts) =
      FSTree.mapMtime f t :: FSTree.mapMtimeList f ts := by rw [FSTree.mapMtimeList]

@[simp] theorem filePathsAt_file (p : List String) (n : String) (m : Int) (l : Bool) :
    filePathsAt p (FSTree.file n m l) = [p] := by rw [filePathsAt]

@[simp] theorem filePathsAt_dir (p : List String) (n : String) (m : Int) (d : Bool)
    (cs : List FSTree) :
    filePathsAt p (FSTree.dir n m d cs) = filePathsAtList p cs := by rw [filePathsAt]

@[simp] theorem filePathsAtList_nil (p : List String) : filePathsAtList p [] = [] := by
  rw [filePathsAtList]

@[simp] theorem filePathsAtList_cons (p : List String) (t : FSTree) (ts : List FSTree) :
    filePathsAtList p (t :: ts) =
      filePathsAt (p ++ [FSTree.name t]) t ++ filePathsAtList p ts := by
  rw [filePathsAtList]

@[simp] theorem height_file (n : String) (m : Int) (l : Bool) :
    FSTree.height (FSTree.file n m l) = 1 := by rw [FSTree.height]

@[simp] theorem height_dir (n : String) (m : Int) (d : Bool) (cs : List FSTree) :
    FSTree.height (FSTree.dir n m d cs) = 1 + FSTree.heightList cs := by rw [FSTree.height]

@[simp] theorem heightList_nil : FSTree.heightList [] = 0 := by rw [FSTree.heightList]

@[simp] theorem heightList_cons (t : FSTree) (ts : List FSTree) :
    FSTree.heightList (t :: ts) = max (FSTree.height t) (FSTree.heightList ts) := by
  rw [FSTree.heightList]

@[simp] theorem name_mapMtime (f : Int → Int) (t : FSTree) :
    FSTree.name (FSTree.mapMtime f t) = FSTree.name t := by
  cases t <;> simp [FSTree.name]

@[simp] theorem mtime_mapMtime (f : Int → Int) (t : FSTree) :
    FSTree.mtime (FSTree.mapMtime f t) = f (FSTree.mtime t) := by
  cases t <;> simp [FSTree.mtime]

theorem mapMtimeList_append (f : Int → Int) (a b : List FSTree) :
    FSTree.mapMtimeList f (a ++ b) =
      FSTree.mapMtimeList f a ++ FSTree.mapMtimeList f b := by
  induction a with
  | nil => simp
  | cons t ts ih => simp [ih]

theorem noFilesList_iff (ts : List FSTree) :
    FSTree.noFilesList ts = true ↔ ∀ t ∈ ts, FSTree.noFiles t = true := by
  induction ts with
  | nil => simp
  | cons t ts ih => simp [ih]

theorem errFreeList_iff (ts : List FSTree) :
    FSTree.errFreeList ts = true ↔ ∀ t ∈ ts, FSTree.errFree t = true := by
  induction ts with
  | nil => simp
  | cons t ts ih => simp [ih]

/-- On an error-free tree, every survivor of an `Execute` deletion pass
contains no file node: all leaves of the subtree are gone. -/
theorem exec_survivors_noFiles (t : FSTree) :
    ∀ p, FSTree.errFree t = true →
      ∀ s ∈ (deleteRecursively p RunMode.Execute t).1.toList, FSTree.noFiles s = true := by
  refine FSTree.indTree
    (P := fun t => ∀ p, FSTree.errFree t = true →
      ∀ s ∈ (deleteRecursively p RunMode.Execute t).1.toList, FSTree.noFiles s = true)
    (Q := fun ts => ∀ p, FSTree.errFreeList ts = true →
      ∀ s ∈ (deleteList p RunMode.Execute ts).1, FSTree.noFiles s = true)
    ?_ ?_ ?_ ?_ t
  · intro n m locked p h s hs
    simp only [errFree_file, Bool.not_eq_true'] at h
    subst h
    simp at hs
  · intro n m denied cs ihcs p h s hs
    simp only [errFree_dir, Bool.and_eq_true, Bool.not_eq_true'] at h
    obtain ⟨hd, hcs⟩ := h
    subst hd
    simp at hs
    subst hs
    simp [noFilesList_iff]
    exact ihcs p hcs
  · intro p _ s hs
    simp at hs
  · intro c cs ihc ihcs p h s hs
    simp only [errFreeList_cons, Bool.and_eq_true] at h
    simp at hs
    rcases hs with hs | hs
    · exact ihc _ h.1 s (by simpa using hs)
    · exact ihcs p h.2 s hs

/-- Deletion passes preserve freedom from error flags on every survivor. -/
theorem survivors_errFree (t : FSTree) :
    ∀ p mode, FSTree.errFree t = true →
      ∀ s ∈ (deleteRecursively p mode t).1.toList, FSTree.errFree s = true := by
  refine FSTree.indTree
    (P := fun t => ∀ p mode, FSTree.errFree t = true →
      ∀ s ∈ (deleteRecursively p mode t).1.toList, FSTree.errFree s = true)
    (Q := fun ts => ∀ p mode, FSTree.errFreeList ts = true →
      ∀ s ∈ (deleteList p mode ts).1, FSTree.errFree s = true)
    ?_ ?_ ?_ ?_ t
  · intro n m locked p mode h s hs
    simp only [errFree_file, Bool.not_eq_true'] at h
    subst h
    cases mode
    · simp at hs
      simp [hs]
    · simp at hs
  · intro n m denied cs ihcs p mode h s hs
    simp only [errFree_dir, Bool.and_eq_true, Bool.not_eq_true'] at h
    obtain ⟨hd, hcs⟩ := h
    subst hd
    simp at hs
    subst hs
    simp [errFreeList_iff]
    exact ihcs p mode hcs
  · intro p mode _ s hs
    simp at hs
  · intro c cs ihc ihcs p mode h s hs
    simp only [errFreeList_cons, Bool.and_eq_true] at h
    simp at hs
    rcases hs with hs | hs
    · exact ihc _ mode h.1 s (by simpa using hs)
    · exact ihcs p mode h.2 s hs

/-- An error-free tree with no file node is a fixpoint of an `Execute`
deletion pass, and the pass emits no event at all on it. -/
theorem exec_fixpoint_of_noFiles (t : FSTree) :
    ∀ p, FSTree.errFree t = true → FSTree.noFiles t = true →
      deleteRecursively p RunMode.Execute t = (some t, []) := by
  refine FSTree.indTree
    (P := fun t => ∀ p, FSTree.errFree t = true → FSTree.noFiles t = true →
      deleteRecursively p RunMode.Execute t = (some t, []))
    (Q := fun ts => ∀ p, FSTree.errFreeList ts = true → FSTree.noFilesList ts = true →
      deleteList p RunMode.Execute ts = (ts, []))
    ?_ ?_ ?_ ?_ t
  · intro n m locked p _ hnf
    simp at hnf
  · intro n m denied cs ihcs p h hnf
    simp only [errFree_dir, Bool.and_eq_true, Bool.not_eq_true'] at h
    obtain ⟨hd, hcs⟩ := h
    subst hd
    simp only [noFiles_dir] at hnf
    simp [ihcs p hcs hnf]
  · intro p _ _
    simp
  · intro c cs ihc ihcs p h hnf
    simp only [errFreeList_cons, Bool.and_eq_true] at h
    simp only [noFilesList_cons, Bool.and_eq_true] at hnf
    simp [ihc _ h.1 hnf.1, ihcs p h.2 hnf.2]

/-- A dry-run pass keeps every node, performs no `removeFile` call, and its
`Removing (dry-run):` observations list exactly the paths on which the
`Execute` pass would call `removeFile`, in the same order. -/
theorem dryRun_vs_exec (t : FSTree) :
    ∀ p, (deleteRecursively p RunMode.DryRun t).1 = some t ∧
      callsOf (deleteRecursively p RunMode.DryRun t).2 = [] ∧
      dryRunPaths (deleteRecursively p RunMode.DryRun t).2 =
        callsOf (deleteRecursively p RunMode.Execute t).2 := by
  refine FSTree.indTree
    (P := fun t => ∀ p, (deleteRecursively p RunMode.DryRun t).1 = some t ∧
      callsOf (deleteRecursively p RunMode.DryRun t).2 = [] ∧
      dryRunPaths (deleteRecursively p RunMode.DryRun t).2 =
        callsOf (deleteRecursively p RunMode.Execute t).2)
    (Q := fun ts => ∀ p, (deleteList p RunMode.DryRun ts).1 = ts ∧
      callsOf (deleteList p RunMode.DryRun ts).2 = [] ∧
      dryRunPaths (deleteList p RunMode.DryRun ts).2 =
        callsOf (deleteList p RunMode.Execute ts).2)
    ?_ ?_ ?_ ?_ t
  · intro n m locked p
    cases locked <;> simp [callsOf, dryRunPaths]
  · intro n m denied cs ihcs p
    cases denied
    · obtain ⟨h1, h2, h3⟩ := ihcs p
      simp [h1, h2, h3]
    · simp [callsOf, dryRunPaths]
  · intro p
    simp [callsOf, dryRunPaths]
  · intro c cs ihc ihcs p
    obtain ⟨a1, a2, a3⟩ := ihc (p ++ [FSTree.name c])
    obtain ⟨b1, b2, b3⟩ := ihcs p
    simp [a1, a2, a3, b1, b2, b3]

/-- The deletion pass never inspects a last-modified time: rewriting every
mtime in the input tree leaves the event trace unchanged and rewrites the
survivors pointwise. -/
theorem deleteRecursively_mapMtime (t : FSTree) :
    ∀ p mode f, deleteRecursively p mode (FSTree.mapMtime f t) =
      (Option.map (FSTree.mapMtime f) (deleteRecursively p mode t).1,
       (deleteRecursively p mode t).2) := by
  refine FSTree.indTree
    (P := fun t => ∀ p mode f, deleteRecursively p mode (FSTree.mapMtime f t) =
      (Option.map (FSTree.mapMtime f) (deleteRecursively p mode t).1,
       (deleteRecursively p mode t).2))
    (Q := fun ts => ∀ p mode f, deleteList p mode (FSTree.mapMtimeList f ts) =
      (FSTree.mapMtimeList f (deleteList p mode ts).1, (deleteList p mode ts).2))
    ?_ ?_ ?_ ?_ t
  · intro n m locked p mode f
    cases mode
    · simp
    · cases locked <;> simp
  · intro n m denied cs ihcs p mode f
    cases denied <;> simp [ihcs p mode f]
  · intro p mode f
    simp
  · intro c cs ihc ihcs p mode f
    simp [ihc (p ++ [FSTree.name c]) mode f, ihcs p mode f]
    cases (deleteRecursively (p ++ [FSTree.name c]) mode c).1 <;>
      simp [mapMtimeList_append]

/-- Every path on which `removeFile` is called is the path of a file
(non-directory) node of the original tree. -/
theorem calls_are_filePaths (t : FSTree) :
    ∀ p mode, ∀ q ∈ callsOf (deleteRecursively p mode t).2, q ∈ filePathsAt p t := by
  refine FSTree.indTree
    (P := fun t => ∀ p mode,
      ∀ q ∈ callsOf (deleteRecursively p mode t).2, q ∈ filePathsAt p t)
    (Q := fun ts => ∀ p mode,
      ∀ q ∈ callsOf (deleteList p mode ts).2, q ∈ filePathsAtList p ts)
    ?_ ?_ ?_ ?_ t
  · intro n m locked p mode q hq
    cases mode
    · simp [callsOf] at hq
    · cases locked <;> simp [callsOf] at hq <;> simp [hq]
  · intro n m denied cs ihcs p mode q hq
    cases denied
    · simp at hq
      exact ihcs p mode q hq
    · simp [callsOf] at hq
  · intro p mode q hq
    simp [callsOf] at hq
  · intro c cs ihc ihcs p mode q hq
    simp at hq
    rcases hq with hq | hq
    · exact List.mem_append_left _ (ihc (p ++ [FSTree.name c]) mode q hq)
    · exact List.mem_append_right _ (ihcs p mode q hq)

theorem precOkFrom_of_precOk (ys : List Ev) (h : precOk ys = true) (e : Ev) :
    precOkFrom e ys = true := by
  cases ys with
  | nil => rfl
  | cons y rest =>
    simp only [precOk, Bool.and_eq_true, Bool.not_eq_true'] at h
    cases y with
    | out o => simpa [precOkFrom, callOkAfter] using h.2
    | removeCall q => simp [isCall] at h

theorem precOkFrom_append (a : Ev) (xs ys : List Ev)
    (h1 : precOkFrom a xs = true) (h2 : precOk ys = true) :
    precOkFrom a (xs ++ ys) = true := by
  induction xs generalizing a with
  | nil => simpa using precOkFrom_of_precOk ys h2 a
  | cons x xs ih =>
    simp only [precOkFrom, Bool.and_eq_true] at h1
    simpa [precOkFrom, h1.1] using ih x h1.2

theorem precOk_append (xs ys : List Ev)
    (h1 : precOk xs = true) (h2 : precOk ys = true) : precOk (xs ++ ys) = true := by
  cases xs with
  | nil => simpa
  | cons x rest =>
    simp only [precOk, Bool.and_eq_true] at h1
    simp only [List.cons_append, precOk, Bool.and_eq_true]
    exact ⟨h1.1, precOkFrom_append x rest ys h1.2 h2⟩

/-- In any trace of an `Execute` pass, every `removeFile` invocation is
immediately preceded by the `Removing:` observation for its path. -/
theorem exec_trace_precOk (t : FSTree) :
    ∀ p, precOk (deleteRecursively p RunMode.Execute t).2 = true := by
  refine FSTree.indTree
    (P := fun t => ∀ p, precOk (deleteRecursively p RunMode.Execute t).2 = true)
    (Q := fun ts => ∀ p, precOk (deleteList p RunMode.Execute ts).2 = true)
    ?_ ?_ ?_ ?_ t
  · intro n m locked p
    cases locked <;> simp [precOk, precOkFrom, callOkAfter, isCall]
  · intro n m denied cs ihcs p
    cases denied
    · simpa using ihcs p
    · simp [precOk]
  · intro p
    simp [precOk]
  · intro c cs ihc ihcs p
    simp only [deleteList_cons]
    exact precOk_append _ _ (ihc (p ++ [FSTree.name c])) (ihcs p)

@[simp] theorem deleteRecursivelyFuel_zero (p : List String) (mode : RunMode) (t : FSTree) :
    deleteRecursivelyFuel 0 p mode t = none := by rw [deleteRecursivelyFuel]

@[simp] theorem deleteRecursivelyFuel_succ_dir (fuel : Nat) (p : List String) (mode : RunMode)
    (n : String) (m : Int) (d : Bool) (cs : List FSTree) :
    deleteRecursivelyFuel (Nat.succ fuel) p mode (FSTree.dir n m d cs) =
      (if d then some (some (FSTree.dir n m d cs), [])
       else
        match deleteListFuel fuel p mode cs with
        | none => none
        | some r => some (some (FSTree.dir n m d r.1), r.2)) := by
  rw [deleteRecursivelyFuel.eq_def]

@[simp] theorem deleteRecursivelyFuel_succ_file (fuel : Nat) (p : List String) (mode : RunMode)
    (n : String) (m : Int) (locked : Bool) :
    deleteRecursivelyFuel (Nat.succ fuel) p mode (FSTree.file n m locked) =
      (match mode with
       | RunMode.DryRun =>
         some (some (FSTree.file n m locked), [Ev.out (Obs.removingDryRun p)])
       | RunMode.Execute =>
         if locked then
           some (some (FSTree.file n m locked),
             [Ev.out (Obs.removing p), Ev.removeCall p, Ev.out (Obs.error ecMsg)])
         else
           some (none, [Ev.out (Obs.removing p), Ev.removeCall p])) := by
  rw [deleteRecursivelyFuel.eq_def]

@[simp] theorem deleteListFuel_nil (fuel : Nat) (p : List String) (mode : RunMode) :
    deleteListFuel fuel p mode [] = some ([], []) := by rw [deleteListFuel]

@[simp] theorem deleteListFuel_cons (fuel : Nat) (p : List String) (mode : RunMode)
    (c : FSTree) (rest : List FSTree) :
    deleteListFuel fuel p mode (c :: rest) =
      (match deleteRecursivelyFuel fuel (p ++ [FSTree.name c]) mode c with
       | none => none
       | some r1 =>
         match deleteListFuel fuel p mode rest with
         | none => none
         | some r2 => some (r1.1.toList ++ r2.1, r1.2 ++ r2.2)) := by
  rw [deleteListFuel]

/-- With fuel at least the height of the tree, the fuel-bounded recursion
completes and agrees with the total embedding. -/
theorem fuel_adequate (t : FSTree) :
    ∀ p mode fuel, FSTree.height t ≤ fuel →
      deleteRecursivelyFuel fuel p mode t = some (deleteRecursively p mode t) := by
  refine FSTree.indTree
    (P := fun t => ∀ p mode fuel, FSTree.height t ≤ fuel →
      deleteRecursivelyFuel fuel p mode t = some (deleteRecursively p mode t))
    (Q := fun ts => ∀ p mode fuel, FSTree.heightList ts ≤ fuel →
      deleteListFuel fuel p mode ts = some (deleteList p mode ts))
    ?_ ?_ ?_ ?_ t
  · intro n m locked p mode fuel h
    match fuel with
    | 0 => simp at h
    | Nat.succ f =>
      cases mode
      · simp
      · cases locked <;> simp
  · intro n m denied cs ihcs p mode fuel h
    match fuel with
    | 0 => simp at h
    | Nat.succ f =>
      simp only [height_dir] at h
      have hf : FSTree.heightList cs ≤ f := by omega
      cases denied
      · simp [ihcs p mode f hf]
      · simp
  · intro p mode fuel _
    simp
  · intro c cs ihc ihcs p mode fuel h
    simp only [heightList_cons, max_le_iff] at h
    simp [ihc (p ++ [FSTree.name c]) mode fuel h.1, ihcs p mode fuel h.2]

theorem deleteDirectoriesLoop_append (p : List String) (θ : Int) (mode : RunMode)
    (xs ys : List FSTree) :
    deleteDirectoriesLoop p θ mode (xs ++ ys) =
      ((deleteDirectoriesLoop p θ mode xs).1 ++ (deleteDirectoriesLoop p θ mode ys).1,
       (deleteDirectoriesLoop p θ mode xs).2 ++ (deleteDirectoriesLoop p θ mode ys).2) := by
  induction xs with
  | nil => simp
  | cons c rest ih => simp [ih]

/-- Survivors of a first `Execute` run: error-free, and file-free whenever
still strictly older than the threshold. -/
theorem processEntry_first_run (p : List String) (θ : Int) (c : FSTree)
    (h : FSTree.errFree c = true) :
    ∀ s ∈ (processEntry p θ RunMode.Execute c).1.toList,
      FSTree.errFree s = true ∧ (FSTree.mtime s < θ → FSTree.noFiles s = true) := by
  intro s hs
  unfold processEntry at hs
  by_cases hm : FSTree.mtime c < θ
  · rw [if_pos hm] at hs
    exact ⟨survivors_errFree c _ _ h s hs, fun _ => exec_survivors_noFiles c _ h s hs⟩
  · rw [if_neg hm] at hs
    simp at hs
    subst hs
    exact ⟨h, fun hlt => absurd hlt hm⟩

/-- An entry that is error-free and file-free-if-old is left alone by the
loop body, with no `removeFile` call and no error observation. -/
theorem processEntry_stable (p : List String) (θ : Int) (s : FSTree)
    (hEF : FSTree.errFree s = true)
    (hcond : FSTree.mtime s < θ → FSTree.noFiles s = true) :
    (processEntry p θ RunMode.Execute s).1 = some s ∧
      callsOf (processEntry p θ RunMode.Execute s).2 = [] ∧
      errorsOf (processEntry p θ RunMode.Execute s).2 = [] := by
  unfold processEntry
  by_cases hm : FSTree.mtime s < θ
  · rw [if_pos hm, exec_fixpoint_of_noFiles s _ hEF (hcond hm)]
    simp
  · rw [if_neg hm]
    simp [callsOf, errorsOf]

theorem loop_first_run (p : List String) (θ : Int) (cs : List FSTree)
    (h : ∀ t ∈ cs, FSTree.errFree t = true) :
    ∀ s ∈ (deleteDirectoriesLoop p θ RunMode.Execute cs).1,
      FSTree.errFree s = true ∧ (FSTree.mtime s < θ → FSTree.noFiles s = true) := by
  induction cs with
  | nil => simp
  | cons c rest ih =>
    intro s hs
    simp only [deleteDirectoriesLoop_cons, List.mem_append] at hs
    rcases hs with hs | hs
    · exact processEntry_first_run p θ c (h c (by simp)) s hs
    · exact ih (fun t ht => h t (by simp [ht])) s hs

theorem loop_stable (p : List String) (θ : Int) (ss : List FSTree)
    (h : ∀ s ∈ ss, FSTree.errFree s = true ∧ (FSTree.mtime s < θ → FSTree.noFiles s = true)) :
    (deleteDirectoriesLoop p θ RunMode.Execute ss).1 = ss ∧
      callsOf (deleteDirectoriesLoop p θ RunMode.Execute ss).2 = [] ∧
      errorsOf (deleteDirectoriesLoop p θ RunMode.Execute ss).2 = [] := by
  induction ss with
  | nil => simp
  | cons s rest ih =>
    obtain ⟨h1, h2, h3⟩ := processEntry_stable p θ s (h s (by simp)).1 (h s (by simp)).2
    obtain ⟨g1, g2, g3⟩ := ih (fun t ht => h t (by simp [ht]))
    simp [h1, h2, h3, g1, g2, g3]

/-- Exit-status characterization of `mainRun`: the process exits 0 exactly
when the argument count is right, the age parses, and the root can be
opened for listing. -/
theorem mainRun_success_char (args : List String) (now : Int) (root : Option FSTree) :
    (mainRun args now root).1 = ExitStatus.success ↔
      (args.length = 2 ∧ (stoi (args.getD 1 "")).isSome = true ∧ rootListable root = true) := by
  by_cases hlen : args.length = 2
  · unfold mainRun
    rw [if_neg (by simp [hlen])]
    cases hst : stoi (args.getD 1 "") with
    | none =>
      simp [hlen]
    | some minutes =>
      cases root with
      | none =>
        simp [hlen, hst, deleteDirectoriesIfOlderThan, listDirectoriesRoot, rootListable]
      | some t =>
        cases t with
        | file n m l =>
          simp [hlen, hst, deleteDirectoriesIfOlderThan, listDirectoriesRoot, rootListable]
        | dir n m d cs =>
          simp [hlen, hst, deleteDirectoriesIfOlderThan, listDirectoriesRoot, rootListable]
  · simp [mainRun, hlen]

/-- C1: For every directory tree and every threshold, and for every
top-level child of the root whose last-modified time is strictly before
the threshold: after `clean` runs in `Execute` mode, every leaf
(non-directory entry) originally contained in the subtree of that child no
longer exists.  The child sits at an arbitrary position of the root
listing; the run decomposes around it, and each survivor of the old child
contains no file node.  The `errFree` hypothesis restricts the statement
to ordinary directory trees, on which the backing filesystem raises no
permission errors. -/
theorem claim_c1 (p : List String) (θ : Int) (pre post : List FSTree) (c : FSTree)
    (hEF : FSTree.errFree c = true) (hold : FSTree.mtime c < θ) :
    (deleteDirectoriesLoop p θ RunMode.Execute (pre ++ c :: post)).1
      = (deleteDirectoriesLoop p θ RunMode.Execute pre).1
        ++ ((processEntry p θ RunMode.Execute c).1.toList
            ++ (deleteDirectoriesLoop p θ RunMode.Execute post).1)
    ∧ ∀ s ∈ (processEntry p θ RunMode.Execute c).1.toList, FSTree.noFiles s = true := by
  constructor
  · rw [deleteDirectoriesLoop_append]
    simp
  · intro s hs
    unfold processEntry at hs
    rw [if_pos hold] at hs
    exact exec_survivors_noFiles c _ hEF s hs

/-- Witness for C1: an old directory holding one old file, threshold 0. -/
theorem claim_c1_witness :
    (deleteDirectoriesLoop [] 0 RunMode.Execute
        ([] ++ FSTree.dir "old" (-1) false [FSTree.file "f" (-2) false] :: [])).1
      = (deleteDirectoriesLoop [] 0 RunMode.Execute []).1
        ++ ((processEntry [] 0 RunMode.Execute
              (FSTree.dir "old" (-1) false [FSTree.file "f" (-2) false])).1.toList
            ++ (deleteDirectoriesLoop [] 0 RunMode.Execute []).1)
    ∧ ∀ s ∈ (processEntry [] 0 RunMode.Execute
          (FSTree.dir "old" (-1) false [FSTree.file "f" (-2) false])).1.toList,
        FSTree.noFiles s = true :=
  claim_c1 [] 0 [] [] (FSTree.dir "old" (-1) false [FSTree.file "f" (-2) false])
    (by decide) (by decide)

/-- C2: the age comparison happens exactly once per top-level child, at
the top level.  A child not strictly older than the threshold yields
exactly the skipping observation and survives untouched; a strictly older
child is handed unchanged to `deleteRecursively`; and `deleteRecursively`
never consults a last-modified time: rewriting every mtime of the subtree
through an arbitrary function changes neither the event trace nor the
shape of the result, so every descendant is deleted unconditionally
regardless of its own age. -/
theorem claim_c2 (p : List String) (θ : Int) (mode : RunMode) (c : FSTree) (f : Int → Int) :
    (¬ FSTree.mtime c < θ →
      processEntry p θ mode c = (some c, [Ev.out (Obs.skipping (p ++ [FSTree.name c]))]))
    ∧ (FSTree.mtime c < θ →
      processEntry p θ mode c = deleteRecursively (p ++ [FSTree.name c]) mode c)
    ∧ deleteRecursively (p ++ [FSTree.name c]) mode (FSTree.mapMtime f c)
        = (Option.map (FSTree.mapMtime f) (deleteRecursively (p ++ [FSTree.name c]) mode c).1,
           (deleteRecursively (p ++ [FSTree.name c]) mode c).2) := by
  refine ⟨fun h => ?_, fun h => ?_, deleteRecursively_mapMtime c _ mode f⟩
  · unfold processEntry
    rw [if_neg h]
  · unfold processEntry
    rw [if_pos h]

/-- Witness for C2: a young file child is skipped with exactly the
skipping observation. -/
theorem claim_c2_witness :
    processEntry [] 0 RunMode.Execute (FSTree.file "n" 3 false)
      = (some (FSTree.file "n" 3 false), [Ev.out (Obs.skipping ([] ++ ["n"]))]) :=
  (claim_c2 [] 0 RunMode.Execute (FSTree.file "n" 3 false) id).1 (by decide)

/-- C3: a dry-run invocation leaves every top-level subtree in place and
never invokes `removeFile`, while its `Removing (dry-run):` observations
list exactly the paths on which the `Execute` invocation on the same tree
calls `removeFile`, in the same order. -/
theorem claim_c3 (p : List String) (θ : Int) (cs : List FSTree) :
    (deleteDirectoriesLoop p θ RunMode.DryRun cs).1 = cs
    ∧ callsOf (deleteDirectoriesLoop p θ RunMode.DryRun cs).2 = []
    ∧ dryRunPaths (deleteDirectoriesLoop p θ RunMode.DryRun cs).2
        = callsOf (deleteDirectoriesLoop p θ RunMode.Execute cs).2 := by
  induction cs with
  | nil => simp [callsOf, dryRunPaths]
  | cons c rest ih =>
    obtain ⟨i1, i2, i3⟩ := ih
    by_cases hm : FSTree.mtime c < θ
    · obtain ⟨a1, a2, a3⟩ := dryRun_vs_exec c (p ++ [FSTree.name c])
      simp [processEntry, hm, a1, a2, a3, i1, i2, i3]
    · simp [processEntry, hm, i1, i2, i3]

/-- C4: every path passed to `removeFile` is the path of a node the port
classified as a non-directory (a file node of the original tree), and a
directory node always survives the pass as a directory — it is never
handed to `removeFile`, even after all its children have been removed. -/
theorem claim_c4 (p : List String) (mode : RunMode) :
    (∀ t : FSTree, ∀ q ∈ callsOf (deleteRecursively p mode t).2, q ∈ filePathsAt p t)
    ∧ ∀ n : String, ∀ m : Int, ∀ d : Bool, ∀ cs : List FSTree,
        ∃ cs2, (deleteRecursively p mode (FSTree.dir n m d cs)).1
          = some (FSTree.dir n m d cs2) := by
  constructor
  · intro t
    exact calls_are_filePaths t p mode
  · intro n m d cs
    cases d
    · exact ⟨(deleteList p mode cs).1, by simp⟩
    · exact ⟨cs, by simp⟩

/-- Witness for C4: the one call made for a plain file targets a file path. -/
theorem claim_c4_witness :
    ["f"] ∈ filePathsAt ["f"] (FSTree.file "f" 0 false) :=
  (claim_c4 ["f"] RunMode.Execute).1 (FSTree.file "f" 0 false) ["f"] (by decide)

/-- C5: in `Execute` mode a failing `removeFile` surfaces the error-code
message as an error observation while the entry survives, and the sibling
loop always continues: processing a listing is the processing of its head
followed by the processing of the remaining entries, whatever events
(including errors) the head produced. -/
theorem claim_c5 (p : List String) (mode : RunMode) (n : String) (m : Int)
    (c : FSTree) (rest : List FSTree) :
    deleteRecursively p RunMode.Execute (FSTree.file n m true)
      = (some (FSTree.file n m true),
         [Ev.out (Obs.removing p), Ev.removeCall p, Ev.out (Obs.error ecMsg)])
    ∧ deleteList p mode (c :: rest)
      = ((deleteRecursively (p ++ [FSTree.name c]) mode c).1.toList
           ++ (deleteList p mode rest).1,
         (deleteRecursively (p ++ [FSTree.name c]) mode c).2
           ++ (deleteList p mode rest).2) :=
  ⟨by simp, by simp⟩

/-- C6 counterexample: two well-formed arguments (correct count, parsable
age) with a root path naming no filesystem object.  Listing the root
throws `fs::filesystem_error` out of `main`, so the process does not exit
with success, contradicting the claim that listing failures on the root
still yield exit status 0. -/
theorem claim_c6_counterexample :
    (["missing", "5"] : List String).length = 2
    ∧ (stoi "5").isSome = true
    ∧ (mainRun ["missing", "5"] 0 none).1 ≠ ExitStatus.success := by
  refine ⟨rfl, by decide, by decide⟩

/-- C6 amended: the exit status is 0 exactly when the argument count is
two, the age argument parses as an `int` (digits after optional `isspace`
whitespace and sign, value within the `int` range — otherwise `std::stoi`
throws an uncaught exception), and the root path can be opened for listing
(it exists and is a directory; a permission-denied root still opens, as an
empty listing).  Wrong argument count, an unparsable or out-of-range age,
and an unopenable root all yield a non-zero status; per-entry outcomes of
the traversal never affect the status. -/
theorem claim_c6_amended (args : List String) (now : Int) (root : Option FSTree) :
    (mainRun args now root).1 = ExitStatus.success ↔
      (args.length = 2 ∧ (stoi (args.getD 1 "")).isSome = true
        ∧ rootListable root = true) :=
  mainRun_success_char args now root

/-- C7: a directory whose enumeration is permission-denied is silently
skipped — it survives unchanged, contributes no event at all, and the
siblings after it are processed exactly as they would be on their own —
and a run over any openable root (denied or not) still exits with
success. -/
theorem claim_c7 (p : List String) (mode : RunMode) (n : String) (m : Int)
    (cs rest : List FSTree) :
    deleteList p mode (FSTree.dir n m true cs :: rest)
      = (FSTree.dir n m true cs :: (deleteList p mode rest).1,
         (deleteList p mode rest).2)
    ∧ ∀ a b : String, ∀ now v : Int, ∀ n2 : String, ∀ m2 : Int, ∀ d : Bool,
        ∀ cs2 : List FSTree, stoi b = some v →
        (mainRun [a, b] now (some (FSTree.dir n2 m2 d cs2))).1 = ExitStatus.success := by
  constructor
  · simp
  · intro a b now v n2 m2 d cs2 hb
    rw [mainRun_success_char]
    exact ⟨rfl, by simp [hb], rfl⟩

/-- Witness for C7: a run over a fully permission-denied root directory
still exits with success. -/
theorem claim_c7_witness :
    (mainRun ["root", "5"] 0 (some (FSTree.dir "r" 0 true []))).1 = ExitStatus.success :=
  (claim_c7 [] RunMode.Execute "d" 0 [] []).2 "root" "5" 0 5 "r" 0 true [] (by decide)

/-- C8: `Execute` is idempotent on ordinary (error-free) trees: a second
`Execute` run on the survivors of a first one performs no `removeFile`
call at all, emits no error observation, and changes nothing. -/
theorem claim_c8 (p : List String) (θ : Int) (cs : List FSTree)
    (h : ∀ t ∈ cs, FSTree.errFree t = true) :
    (deleteDirectoriesLoop p θ RunMode.Execute
        (deleteDirectoriesLoop p θ RunMode.Execute cs).1).1
      = (deleteDirectoriesLoop p θ RunMode.Execute cs).1
    ∧ callsOf (deleteDirectoriesLoop p θ RunMode.Execute
        (deleteDirectoriesLoop p θ RunMode.Execute cs).1).2 = []
    ∧ errorsOf (deleteDirectoriesLoop p θ RunMode.Execute
        (deleteDirectoriesLoop p θ RunMode.Execute cs).1).2 = [] :=
  loop_stable p θ _ (loop_first_run p θ cs h)

/-- Witness for C8 on a mixed listing: one old subtree, one young file. -/
theorem claim_c8_witness :
    (deleteDirectoriesLoop [] 0 RunMode.Execute
        (deleteDirectoriesLoop [] 0 RunMode.Execute
          [FSTree.dir "old" (-1) false [FSTree.file "f" (-2) false],
           FSTree.file "new" 3 false]).1).1
      = (deleteDirectoriesLoop [] 0 RunMode.Execute
          [FSTree.dir "old" (-1) false [FSTree.file "f" (-2) false],
           FSTree.file "new" 3 false]).1
    ∧ callsOf (deleteDirectoriesLoop [] 0 RunMode.Execute
        (deleteDirectoriesLoop [] 0 RunMode.Execute
          [FSTree.dir "old" (-1) false [FSTree.file "f" (-2) false],
           FSTree.file "new" 3 false]).1).2 = []
    ∧ errorsOf (deleteDirectoriesLoop [] 0 RunMode.Execute
        (deleteDirectoriesLoop [] 0 RunMode.Execute
          [FSTree.dir "old" (-1) false [FSTree.file "f" (-2) false],
           FSTree.file "new" 3 false]).1).2 = [] :=
  claim_c8 [] 0
    [FSTree.dir "old" (-1) false [FSTree.file "f" (-2) false],
     FSTree.file "new" 3 false]
    (by decide)

/-- C9: the traversal terminates on every finite tree the port can
present: the fuel-bounded mirror of the recursion completes (and agrees
with the total embedding) whenever the fuel is at least the height of the
tree, so the recursion depth is bounded by the structure the port
exposes. -/
theorem claim_c9 (p : List String) (mode : RunMode) (t : FSTree) (fuel : Nat)
    (h : FSTree.height t ≤ fuel) :
    deleteRecursivelyFuel fuel p mode t = some (deleteRecursively p mode t) :=
  fuel_adequate t p mode fuel h

/-- Witness for C9 at a two-level tree with fuel 2. -/
theorem claim_c9_witness :
    deleteRecursivelyFuel 2 [] RunMode.Execute
        (FSTree.dir "d" 0 false [FSTree.file "f" 0 false])
      = some (deleteRecursively [] RunMode.Execute
          (FSTree.dir "d" 0 false [FSTree.file "f" 0 false])) :=
  claim_c9 [] RunMode.Execute (FSTree.dir "d" 0 false [FSTree.file "f" 0 false]) 2
    (by decide)

/-- C10: in `Execute` mode every `removeFile` invocation in the trace is
immediately preceded by the `Removing:` observation for its path, and a
file whose removal fails still produces the `Removing:` observation first,
followed by the call and then a separate error observation. -/
theorem claim_c10 (p : List String) (t : FSTree) :
    precOk (deleteRecursively p RunMode.Execute t).2 = true
    ∧ ∀ n : String, ∀ m : Int,
        (deleteRecursively p RunMode.Execute (FSTree.file n m true)).2
          = [Ev.out (Obs.removing p), Ev.removeCall p, Ev.out (Obs.error ecMsg)] :=
  ⟨exec_trace_precOk t p, fun n m => by simp⟩
